import Mathlib

/-!
Verification of the QED-dapp liquid-democracy voting system.

The repository ships a thin HTTP/CLI client (src/src/client.py); the
server-side decision core (ProposalRegistry, BallotStore, DelegationResolver,
TallyEngine) is described by the specification but absent from the sources.
The client's request construction is embedded directly from client.py; the
decision core is modelled from the specification, as marked on each
definition.
-/

namespace QED

/-! ## Data model -/

/-- Modelled from the spec (§3): proposal lifecycle status.  The
ProposalRegistry component is not in the repository sources. -/
inductive Status where
  | Open
  | Finalized
deriving DecidableEq, Repr

/-- Modelled from the spec (§4.4): final outcome of a proposal. -/
inductive Outcome where
  | Passed
  | Rejected
deriving DecidableEq, Repr

/-- Modelled from the spec (§4.3): effective vote of a participant. -/
inductive Vote where
  | Yes
  | No
  | Abstain
deriving DecidableEq, Repr, BEq

/-- Modelled from the spec (§3): TallyResult record, created once by
finalize. -/
structure TallyResult where
  proposal_id : String
  yes_count : Nat
  no_count : Nat
  abstain_count : Nat
  outcome : Outcome
  finalized_by : Int
  finalized_at : Nat
deriving DecidableEq, Repr

/-- Modelled from the spec (§3): a proposal; `result` is attached by the
single Finalized transition. -/
structure Proposal where
  id : String
  proposer_id : Int
  statement : String
  status : Status
  result : Option TallyResult
deriving DecidableEq, Repr

/-- Modelled from the spec (§3): BallotAction, a tagged vote-or-delegate
record keyed by (proposal id, voter id) with a sequence number. -/
inductive BallotAction where
  | DirectVote (proposal_id : String) (voter_id : Int) (is_yes : Bool) (seq : Nat)
  | Delegation (proposal_id : String) (voter_id : Int) (delegate_id : Int) (seq : Nat)
deriving DecidableEq, Repr

def BallotAction.proposalId : BallotAction → String
  | .DirectVote p _ _ _ => p
  | .Delegation p _ _ _ => p

def BallotAction.voterId : BallotAction → Int
  | .DirectVote _ v _ _ => v
  | .Delegation _ v _ _ => v

/-- Modelled from the spec (§2, §9): the in-memory core state.  The ballot
list is append-only history, most recent first; `nextSeq` provides the
strictly increasing sequence numbers of §3. -/
structure CoreState where
  proposals : List Proposal
  ballots : List BallotAction
  nextSeq : Nat
deriving DecidableEq, Repr

/-- Modelled from the spec (§7): the error kinds of the core. -/
inductive CoreError where
  | NotFound
  | ProposalFinalized
  | InvalidDelegation
  | AlreadyFinalized
deriving DecidableEq, Repr

/-! ## BallotStore queries (modelled from the spec §4.2) -/

/-- Modelled from the spec (§4.2 `currentAction`): the current (most recent,
non-superseded) action of a voter on a proposal.  History is most recent
first, so the first matching record is the current one. -/
def currentAction (b : List BallotAction) (pid : String) (v : Int) : Option BallotAction :=
  b.find? fun a => decide (a.proposalId = pid ∧ a.voterId = v)

/-- Voters occurring in the history of a proposal (with multiplicity). -/
def votersOf (b : List BallotAction) (pid : String) : List Int :=
  (b.filter fun a => decide (a.proposalId = pid)).map BallotAction.voterId

/-- Modelled from the spec (§4.2 `actors`): the set of voter ids with any
current action on the proposal, as a deduplicated list. -/
def actorsList (b : List BallotAction) (pid : String) : List Int :=
  (votersOf b pid).dedup

/-! ## DelegationResolver (modelled from the spec §4.3) -/

/-- Modelled from the spec (§4.3): one delegation-chain walk with an explicit
visited path.  A `DirectVote` yields its value; a `Delegation` moves to the
delegate, detecting a cycle when the delegate is already on the path and a
dangling delegation when the delegate has no current action.  The fuel
argument only bounds the recursion; `resolveVoter` supplies fuel exceeding
the number of actors, which is never exhausted (see `resolveFromF_fuel_irrel`). -/
def resolveFromF (b : List BallotAction) (pid : String) : Nat → List Int → BallotAction → Vote
  | 0, _, _ => .Abstain
  | _ + 1, _, .DirectVote _ _ y _ => if y then .Yes else .No
  | n + 1, path, .Delegation _ _ d _ =>
    if d ∈ path then .Abstain
    else
      match currentAction b pid d with
      | none => .Abstain
      | some a => resolveFromF b pid n (d :: path) a

/-- Modelled from the spec (§4.3): the effective vote of one actor. -/
def resolveVoter (b : List BallotAction) (pid : String) (v : Int) : Vote :=
  match currentAction b pid v with
  | none => .Abstain
  | some a => resolveFromF b pid (b.length + 1) [v] a

/-- Modelled from the spec (§4.3 `resolve`): the voter → effective-vote
mapping; `none` for ids outside `actors(proposal_id)`. -/
def effectiveVote (b : List BallotAction) (pid : String) (v : Int) : Option Vote :=
  match currentAction b pid v with
  | none => none
  | some a => some (resolveFromF b pid (b.length + 1) [v] a)

/-! ## TallyEngine counts (modelled from the spec §4.4) -/

/-- Effective votes of all actors of a proposal, one entry per actor. -/
def effectiveVotes (b : List BallotAction) (pid : String) : List Vote :=
  (actorsList b pid).map (resolveVoter b pid)

def yesCount (b : List BallotAction) (pid : String) : Nat :=
  (effectiveVotes b pid).count .Yes

def noCount (b : List BallotAction) (pid : String) : Nat :=
  (effectiveVotes b pid).count .No

def abstainCount (b : List BallotAction) (pid : String) : Nat :=
  (effectiveVotes b pid).count .Abstain

/-! ## Operations (modelled from the spec §4.1, §4.2, §4.4) -/

/-- Modelled from the spec (§4.1 `get`): lookup of a proposal by id. -/
def getProposal (s : CoreState) (pid : String) : Option Proposal :=
  s.proposals.find? fun p => decide (p.id = pid)

/-- Modelled from the spec (§4.2 `recordVote`): append a `DirectVote` as the
new current action; NotFound when the proposal is absent, ProposalFinalized
after finalization.  An error leaves the state unchanged (no state is
produced). -/
def recordVote (s : CoreState) (pid : String) (voter : Int) (is_yes : Bool) :
    Except CoreError CoreState :=
  match getProposal s pid with
  | none => .error .NotFound
  | some p =>
    if p.status = .Finalized then .error .ProposalFinalized
    else .ok { s with
      ballots := .DirectVote pid voter is_yes s.nextSeq :: s.ballots,
      nextSeq := s.nextSeq + 1 }

/-- Modelled from the spec (§4.2 `recordDelegation`, §7): append a
`Delegation` as the new current action; InvalidDelegation on self-delegation
(checked first, as §4.2 lists it first), then the same NotFound /
ProposalFinalized preconditions as `recordVote`.  An unknown delegate id is
accepted. -/
def recordDelegation (s : CoreState) (pid : String) (voter delegate : Int) :
    Except CoreError CoreState :=
  if delegate = voter then .error .InvalidDelegation
  else
    match getProposal s pid with
    | none => .error .NotFound
    | some p =>
      if p.status = .Finalized then .error .ProposalFinalized
      else .ok { s with
        ballots := .Delegation pid voter delegate s.nextSeq :: s.ballots,
        nextSeq := s.nextSeq + 1 }

/-- Modelled from the spec (§4.4 `finalize` with §4.1
`commitFinalization`): NotFound when absent, AlreadyFinalized when not Open;
otherwise resolve, count, build the TallyResult (ties reject) and atomically
set status Finalized with the result attached. -/
def finalize (s : CoreState) (pid : String) (finalizer : Int) (t : Nat) :
    Except CoreError (CoreState × TallyResult) :=
  match getProposal s pid with
  | none => .error .NotFound
  | some p =>
    if p.status = .Finalized then .error .AlreadyFinalized
    else
      let r : TallyResult :=
        { proposal_id := pid
          yes_count := yesCount s.ballots pid
          no_count := noCount s.ballots pid
          abstain_count := abstainCount s.ballots pid
          outcome := if noCount s.ballots pid < yesCount s.ballots pid then .Passed else .Rejected
          finalized_by := finalizer
          finalized_at := t }
      .ok ({ s with
        proposals := s.proposals.map fun q =>
          if q.id = pid then { q with status := .Finalized, result := some r } else q }, r)

/-! ## Client request construction (embedded from src/src/client.py) -/

/-- Minimal JSON value model for the client's request bodies. -/
inductive Json where
  | str (s : String)
  | int (n : Int)
  | bool (b : Bool)
deriving DecidableEq, Repr

/-- Lookup of a key in a JSON object body. -/
def jsonLookup (k : String) : List (String × Json) → Option Json
  | [] => none
  | (k', v) :: rest => if k' = k then some v else jsonLookup k rest

/-- From client.py: the base URL constant. -/
def BASE_URL : String := "http://127.0.0.1:8080"

/-- From client.py `vote`: the URL and JSON body posted to /vote. -/
def voteRequest (base_url proposal_id : String) (voter_id : Int) (is_yes : Bool) :
    String × List (String × Json) :=
  (base_url ++ "/vote",
   [("proposal_id", .str proposal_id), ("voter_id", .int voter_id), ("is_yes", .bool is_yes)])

/-- From client.py `delegate`: the URL and JSON body posted to /delegate.
The third value is placed under the key "delegator_id". -/
def delegateRequest (base_url proposal_id : String) (voter_id delegator_id : Int) :
    String × List (String × Json) :=
  (base_url ++ "/delegate",
   [("proposal_id", .str proposal_id), ("voter_id", .int voter_id),
    ("delegator_id", .int delegator_id)])

/-- From client.py `parser_vote`: the positional arguments of the vote
subcommand, in order. -/
structure VoteArgs where
  proposal_id : String
  voter_id : Int
  vote : Int
deriving DecidableEq, Repr

/-- From client.py `parser_delegate`: the positional arguments of the
delegate subcommand, in order; `delegator_id` is the third positional. -/
structure DelegateArgs where
  proposal_id : String
  voter_id : Int
  delegator_id : Int
deriving DecidableEq, Repr

/-- Python's bool() on an int: False exactly at 0. -/
def pyBool (n : Int) : Bool := n != 0

/-- From client.py dispatch: `vote(BASE_URL, args.proposal_id, args.voter_id,
bool(args.vote))`. -/
def runVoteCmd (a : VoteArgs) : String × List (String × Json) :=
  voteRequest BASE_URL a.proposal_id a.voter_id (pyBool a.vote)

/-- From client.py dispatch: `delegate(BASE_URL, args.proposal_id,
args.voter_id, args.delegator_id)`. -/
def runDelegateCmd (a : DelegateArgs) : String × List (String × Json) :=
  delegateRequest BASE_URL a.proposal_id a.voter_id a.delegator_id

/-! ## Helper lemmas about the ballot store -/

theorem currentAction_mem_votersOf {b : List BallotAction} {pid : String} {v : Int}
    {a : BallotAction} (h : currentAction b pid v = some a) : v ∈ votersOf b pid := by
  have hp := List.find?_some h
  have hm := List.mem_of_find?_eq_some h
  simp only [decide_eq_true_eq] at hp
  refine List.mem_map.mpr ⟨a, List.mem_filter.mpr ⟨hm, ?_⟩, hp.2⟩
  simp [hp.1]

theorem mem_votersOf_iff {b : List BallotAction} {pid : String} {v : Int} :
    v ∈ votersOf b pid ↔ ∃ a, currentAction b pid v = some a := by
  constructor
  · intro hv
    obtain ⟨a, ha, hav⟩ := List.mem_map.mp hv
    obtain ⟨hab, hap⟩ := List.mem_filter.mp ha
    simp only [decide_eq_true_eq] at hap
    have : (b.find? fun x => decide (x.proposalId = pid ∧ x.voterId = v)).isSome := by
      refine List.find?_isSome.mpr ⟨a, hab, ?_⟩
      simp [hap, hav]
    exact Option.isSome_iff_exists.mp this
  · rintro ⟨a, ha⟩
    exact currentAction_mem_votersOf ha

/-- The termination measure of a chain walk: actors not yet on the path. -/
def cycleMeasure (b : List BallotAction) (pid : String) (path : List Int) : Nat :=
  ((votersOf b pid).toFinset \ path.toFinset).card

theorem cycleMeasure_lt {b : List BallotAction} {pid : String} {path : List Int} {d : Int}
    {a : BallotAction} (hd : d ∉ path) (h : currentAction b pid d = some a) :
    cycleMeasure b pid (d :: path) < cycleMeasure b pid path := by
  have hdv : d ∈ (votersOf b pid).toFinset := List.mem_toFinset.mpr (currentAction_mem_votersOf h)
  have hdp : d ∉ path.toFinset := fun hc => hd (List.mem_toFinset.mp hc)
  have hmem : d ∈ (votersOf b pid).toFinset \ path.toFinset :=
    Finset.mem_sdiff.mpr ⟨hdv, hdp⟩
  unfold cycleMeasure
  rw [List.toFinset_cons, Finset.sdiff_insert]
  exact Finset.card_erase_lt_of_mem hmem

theorem cycleMeasure_le_length (b : List BallotAction) (pid : String) (path : List Int) :
    cycleMeasure b pid path ≤ b.length := by
  calc ((votersOf b pid).toFinset \ path.toFinset).card
      ≤ (votersOf b pid).toFinset.card := Finset.card_le_card (Finset.sdiff_subset)
    _ ≤ (votersOf b pid).length := List.toFinset_card_le _
    _ ≤ b.length := by
        unfold votersOf
        rw [List.length_map]
        exact List.length_filter_le _ _

/-- Any finite set of ids that all have a current action is no larger than
the ballot history. -/
theorem card_le_length_of_allActed {b : List BallotAction} {pid : String} {S : Finset Int}
    (h : ∀ v ∈ S, ∃ a, currentAction b pid v = some a) : S.card ≤ b.length := by
  have hsub : S ⊆ (votersOf b pid).toFinset := by
    intro v hv
    exact List.mem_toFinset.mpr (mem_votersOf_iff.mpr (h v hv))
  calc S.card ≤ (votersOf b pid).toFinset.card := Finset.card_le_card hsub
    _ ≤ (votersOf b pid).length := List.toFinset_card_le _
    _ ≤ b.length := by
        unfold votersOf
        rw [List.length_map]
        exact List.length_filter_le _ _

/-! ## Step lemmas for the chain walk -/

theorem resolveFromF_direct (b : List BallotAction) (pid : String) (n : Nat)
    (path : List Int) (p0 : String) (v0 : Int) (y : Bool) (q0 : Nat) :
    resolveFromF b pid (n + 1) path (.DirectVote p0 v0 y q0) = if y then .Yes else .No := rfl

theorem resolveFromF_deleg_hit {b : List BallotAction} {pid : String} {n : Nat}
    {path : List Int} {p0 : String} {v0 d : Int} {q0 : Nat} (hd : d ∈ path) :
    resolveFromF b pid (n + 1) path (.Delegation p0 v0 d q0) = .Abstain := by
  simp [resolveFromF, hd]

theorem resolveFromF_deleg_step {b : List BallotAction} {pid : String} {n : Nat}
    {path : List Int} {p0 : String} {v0 d : Int} {q0 : Nat} (hd : d ∉ path) :
    resolveFromF b pid (n + 1) path (.Delegation p0 v0 d q0) =
      match currentAction b pid d with
      | none => .Abstain
      | some a => resolveFromF b pid n (d :: path) a := by
  simp [resolveFromF, hd]

/-! ## The resolver is a function of the current actions only -/

/-- Two histories that agree on every current action produce the same walk
at the same fuel: the walk reads the store only through `currentAction`. -/
theorem resolveFromF_congr {b1 b2 : List BallotAction} {pid : String}
    (h : ∀ v, currentAction b1 pid v = currentAction b2 pid v) :
    ∀ (fuel : Nat) (path : List Int) (a : BallotAction),
      resolveFromF b1 pid fuel path a = resolveFromF b2 pid fuel path a := by
  intro fuel
  induction fuel with
  | zero => intro path a; rfl
  | succ n ih =>
    intro path a
    cases a with
    | DirectVote p0 v0 y q0 => rfl
    | Delegation p0 v0 d q0 =>
      by_cases hd : d ∈ path
      · rw [resolveFromF_deleg_hit hd, resolveFromF_deleg_hit hd]
      · rw [resolveFromF_deleg_step hd, resolveFromF_deleg_step hd, h d]
        cases currentAction b2 pid d with
        | none => rfl
        | some a' => exact ih (d :: path) a'

/-- Any two fuels exceeding the number of unvisited actors give the same
walk result: the fuel is never exhausted. -/
theorem resolveFromF_fuel_irrel {b : List BallotAction} {pid : String} :
    ∀ (fuel1 fuel2 : Nat) (path : List Int) (a : BallotAction),
      cycleMeasure b pid path < fuel1 → cycleMeasure b pid path < fuel2 →
      resolveFromF b pid fuel1 path a = resolveFromF b pid fuel2 path a := by
  intro fuel1
  induction fuel1 with
  | zero => intro fuel2 path a h1 _; omega
  | succ n ih =>
    intro fuel2 path a h1 h2
    cases fuel2 with
    | zero => omega
    | succ m =>
      cases a with
      | DirectVote p0 v0 y q0 => rfl
      | Delegation p0 v0 d q0 =>
        by_cases hd : d ∈ path
        · rw [resolveFromF_deleg_hit hd, resolveFromF_deleg_hit hd]
        · rw [resolveFromF_deleg_step hd, resolveFromF_deleg_step hd]
          cases hc : currentAction b pid d with
          | none => rfl
          | some a' =>
            have hlt := cycleMeasure_lt hd hc
            exact ih m (d :: path) a' (by omega) (by omega)

/-- `effectiveVote` depends only on the current actions: identical current
state yields identical output, whatever superseded history each store
retains. -/
theorem effectiveVote_congr {b1 b2 : List BallotAction} {pid : String}
    (h : ∀ v, currentAction b1 pid v = currentAction b2 pid v) (v : Int) :
    effectiveVote b1 pid v = effectiveVote b2 pid v := by
  unfold effectiveVote
  rw [h v]
  cases hc : currentAction b2 pid v with
  | none => rfl
  | some a =>
    have h1 : cycleMeasure b1 pid [v] < b1.length + 1 :=
      Nat.lt_succ_of_le (cycleMeasure_le_length b1 pid [v])
    have h2 : cycleMeasure b2 pid [v] < b2.length + 1 :=
      Nat.lt_succ_of_le (cycleMeasure_le_length b2 pid [v])
    have hmeq : cycleMeasure b1 pid [v] = cycleMeasure b2 pid [v] := by
      unfold cycleMeasure
      have : (votersOf b1 pid).toFinset = (votersOf b2 pid).toFinset := by
        apply Finset.ext
        intro x
        rw [List.mem_toFinset, List.mem_toFinset, mem_votersOf_iff, mem_votersOf_iff, h x]
      rw [this]
    show some (resolveFromF b1 pid (b1.length + 1) [v] a) =
      some (resolveFromF b2 pid (b2.length + 1) [v] a)
    rw [resolveFromF_congr h (b1.length + 1) [v] a]
    congr 1
    exact resolveFromF_fuel_irrel (b1.length + 1) (b2.length + 1) [v] a (hmeq ▸ h1) h2

/-! ## Cycle safety -/

/-- A walk entering a finite set of voters that is closed under delegation
(every member's current action delegates to a member) always ends in cycle
detection: the result is Abstain. -/
theorem resolveFromF_closedSet {b : List BallotAction} {pid : String} {S : Finset Int}
    (hS : ∀ v ∈ S, ∃ d q, currentAction b pid v = some (.Delegation pid v d q) ∧ d ∈ S) :
    ∀ (fuel : Nat) (path : List Int) (p0 : String) (v0 d : Int) (q0 : Nat),
      d ∈ S → (S \ path.toFinset).card < fuel →
      resolveFromF b pid fuel path (.Delegation p0 v0 d q0) = .Abstain := by
  intro fuel
  induction fuel with
  | zero => intro path p0 v0 d q0 _ hcard; omega
  | succ n ih =>
    intro path p0 v0 d q0 hdS hcard
    by_cases hd : d ∈ path
    · exact resolveFromF_deleg_hit hd
    · rw [resolveFromF_deleg_step hd]
      obtain ⟨d', q', hact, hd'S⟩ := hS d hdS
      rw [hact]
      apply ih (d :: path) pid d d' q' hd'S
      have hdmem : d ∈ S \ path.toFinset := by
        refine Finset.mem_sdiff.mpr ⟨hdS, ?_⟩
        exact fun hc => hd (List.mem_toFinset.mp hc)
      have : (S \ (d :: path).toFinset).card < (S \ path.toFinset).card := by
        rw [List.toFinset_cons, Finset.sdiff_insert]
        exact Finset.card_erase_lt_of_mem hdmem
      omega

/-! ## Dangling chains -/

/-- A delegation chain from target `tgt` through the voters `ws`, ending at
the id `dEnd`: each listed voter's current action delegates to the next, and
the final delegate is `dEnd`. -/
def danglingChain (b : List BallotAction) (pid : String) (dEnd : Int) :
    List Int → Int → Prop
  | [], tgt => tgt = dEnd
  | w :: rest, tgt =>
    tgt = w ∧ ∃ d q, currentAction b pid w = some (.Delegation pid w d q) ∧
      danglingChain b pid dEnd rest d

theorem danglingChain_acted {b : List BallotAction} {pid : String} {dEnd : Int} :
    ∀ {ws : List Int} {tgt : Int}, danglingChain b pid dEnd ws tgt →
      ∀ x ∈ ws, ∃ a, currentAction b pid x = some a := by
  intro ws
  induction ws with
  | nil => intro tgt _ x hx; simp at hx
  | cons w rest ih =>
    rintro tgt ⟨rfl, d, q, hact, hchain⟩ x hx
    rcases List.mem_cons.mp hx with rfl | hx'
    · exact ⟨_, hact⟩
    · exact ih hchain x hx'

/-- A walk following a dangling chain ends at the unacted id and yields
Abstain, provided the fuel covers the chain and the path has not yet touched
the remaining chain. -/
theorem resolveFromF_dangling {b : List BallotAction} {pid : String} {dEnd : Int}
    (hend : currentAction b pid dEnd = none) :
    ∀ (ws : List Int) (tgt : Int) (fuel : Nat) (path : List Int) (p0 : String) (v0 : Int) (q0 : Nat),
      danglingChain b pid dEnd ws tgt → ws.Nodup → dEnd ∉ ws →
      (∀ x ∈ ws, x ∉ path) → dEnd ∉ path → ws.length < fuel →
      resolveFromF b pid fuel path (.Delegation p0 v0 tgt q0) = .Abstain := by
  intro ws
  induction ws with
  | nil =>
    intro tgt fuel path p0 v0 q0 hchain _ _ _ hdp hfuel
    obtain ⟨n, rfl⟩ : ∃ n, fuel = n + 1 := ⟨fuel - 1, by omega⟩
    subst hchain
    rw [resolveFromF_deleg_step hdp, hend]
  | cons w rest ih =>
    rintro tgt fuel path p0 v0 q0 ⟨heq, d, q, hact, hchain⟩ hnd hdw hpath hdp hfuel
    obtain ⟨n, rfl⟩ : ∃ n, fuel = n + 1 := ⟨fuel - 1, by omega⟩
    subst heq
    have hw : tgt ∉ path := hpath tgt (List.mem_cons_self tgt rest)
    rw [resolveFromF_deleg_step hw, hact]
    obtain ⟨hwrest, hndrest⟩ := List.nodup_cons.mp hnd
    apply ih d n (tgt :: path) pid tgt q hchain hndrest
      (fun hc => hdw (List.mem_cons_of_mem tgt hc))
    · intro x hx
      intro hc
      rcases List.mem_cons.mp hc with rfl | hc'
      · exact hwrest hx
      · exact hpath x (List.mem_cons_of_mem tgt hx) hc'
    · intro hc
      rcases List.mem_cons.mp hc with rfl | hc'
      · exact hdw (List.mem_cons_self _ rest)
      · exact hdp hc'
    · simp only [List.length_cons] at hfuel
      omega

/-- A list containing two distinct elements has length at least two. -/
theorem two_le_length_of_mem {α : Type} {x y : α} :
    ∀ {l : List α}, x ∈ l → y ∈ l → x ≠ y → 2 ≤ l.length := by
  intro l
  match l with
  | [] => intro hx _ _; simp at hx
  | [a] =>
    intro hx hy hxy
    rw [List.mem_singleton] at hx hy
    exact absurd (hx.trans hy.symm) hxy
  | a :: b :: rest =>
    intro _ _ _
    simp only [List.length_cons]
    omega

/-! ## Store update lemmas -/

theorem currentAction_cons_self (b : List BallotAction) (pid : String) (v : Int)
    (a : BallotAction) (h1 : a.proposalId = pid) (h2 : a.voterId = v) :
    currentAction (a :: b) pid v = some a := by
  unfold currentAction
  rw [List.find?_cons_of_pos]
  simp [h1, h2]

theorem currentAction_cons_other (b : List BallotAction) {pid pid' : String} {v v' : Int}
    (a : BallotAction) (h1 : a.proposalId = pid) (h2 : a.voterId = v)
    (hne : ¬(pid' = pid ∧ v' = v)) :
    currentAction (a :: b) pid' v' = currentAction b pid' v' := by
  unfold currentAction
  rw [List.find?_cons_of_neg]
  simp only [h1, h2, decide_eq_true_eq]
  rintro ⟨hp, hv⟩
  exact hne ⟨hp.symm, hv.symm⟩

theorem recordVote_ok {s : CoreState} {pid : String} {v : Int} {y : Bool} {s' : CoreState}
    (h : recordVote s pid v y = .ok s') :
    s' = { s with
           ballots := .DirectVote pid v y s.nextSeq :: s.ballots
           nextSeq := s.nextSeq + 1 } := by
  unfold recordVote at h
  split at h
  · exact absurd h (by simp)
  · split at h
    · exact absurd h (by simp)
    · exact (Except.ok.inj h).symm

theorem recordDelegation_ok {s : CoreState} {pid : String} {v d : Int} {s' : CoreState}
    (h : recordDelegation s pid v d = .ok s') :
    s' = { s with
           ballots := .Delegation pid v d s.nextSeq :: s.ballots
           nextSeq := s.nextSeq + 1 } := by
  unfold recordDelegation at h
  split at h
  · exact absurd h (by simp)
  · split at h
    · exact absurd h (by simp)
    · split at h
      · exact absurd h (by simp)
      · exact (Except.ok.inj h).symm

theorem finalize_ok {s : CoreState} {pid : String} {fin : Int} {t : Nat}
    {s' : CoreState} {r : TallyResult} (h : finalize s pid fin t = .ok (s', r)) :
    ∃ p, getProposal s pid = some p ∧ p.status ≠ .Finalized ∧
      r = { proposal_id := pid
            yes_count := yesCount s.ballots pid
            no_count := noCount s.ballots pid
            abstain_count := abstainCount s.ballots pid
            outcome := if noCount s.ballots pid < yesCount s.ballots pid then .Passed
                       else .Rejected
            finalized_by := fin
            finalized_at := t } ∧
      s' = { s with proposals := s.proposals.map fun q =>
               if q.id = pid then { q with status := .Finalized, result := some r } else q } := by
  unfold finalize at h
  split at h
  · exact absurd h (by simp)
  · rename_i p hg
    split at h
    · exact absurd h (by simp)
    · rename_i hs
      simp only [Except.ok.injEq, Prod.mk.injEq] at h
      obtain ⟨hs', hr⟩ := h
      subst hr
      exact ⟨p, hg, hs, rfl, hs'.symm⟩

theorem getProposal_finalize_update (s : CoreState) (pid : String) (r : TallyResult)
    {p : Proposal} (hp : getProposal s pid = some p) :
    getProposal { s with proposals := s.proposals.map fun q =>
        if q.id = pid then { q with status := .Finalized, result := some r } else q } pid
      = some { p with status := .Finalized, result := some r } := by
  have hpid : p.id = pid := by
    have := List.find?_some hp
    simpa using this
  show (s.proposals.map fun q =>
      if q.id = pid then { q with status := Status.Finalized, result := some r } else q).find?
      (fun q => decide (q.id = pid)) = _
  rw [List.find?_map]
  have hcomp : ((fun q => decide (q.id = pid)) ∘ fun q : Proposal =>
      if q.id = pid then { q with status := Status.Finalized, result := some r } else q)
      = fun q : Proposal => decide (q.id = pid) := by
    funext q
    by_cases hq : q.id = pid
    · simp [hq]
    · simp [hq]
  rw [hcomp]
  show (getProposal s pid).map _ = _
  rw [hp]
  simp [hpid]

/-! ## Claim theorems -/

/-- C1: once a finalize call has committed, every subsequent finalize call on
that proposal fails with AlreadyFinalized (producing no new state, hence no
mutation), and the stored TallyResult is exactly the one committed by the
successful call; finalize never re-returns a prior result. -/
theorem finalize_at_most_once (s : CoreState) (pid : String) (fin : Int) (t : Nat)
    (s' : CoreState) (r : TallyResult) (h : finalize s pid fin t = .ok (s', r)) :
    (∀ (fin' : Int) (t' : Nat), finalize s' pid fin' t' = .error .AlreadyFinalized) ∧
    (getProposal s' pid).map Proposal.result = some (some r) := by
  obtain ⟨p, hg, hopen, hr, hs'⟩ := finalize_ok h
  have hget : getProposal s' pid = some { p with status := .Finalized, result := some r } := by
    rw [hs']
    exact getProposal_finalize_update s pid r hg
  constructor
  · intro fin' t'
    unfold finalize
    rw [hget]
    rfl
  · rw [hget]
    rfl

/-- C5: each (proposal, voter) key has exactly one current action — a newly
recorded vote or delegation becomes the current action for its key and leaves
every other key's current action unchanged — and resolution reads only
current actions: stores agreeing on every current action resolve
identically, whatever superseded history they retain. -/
theorem current_action_supersedes :
    (∀ (s : CoreState) (pid : String) (v : Int) (y : Bool) (s' : CoreState),
        recordVote s pid v y = .ok s' →
        currentAction s'.ballots pid v = some (.DirectVote pid v y s.nextSeq) ∧
        ∀ (pid' : String) (v' : Int), ¬(pid' = pid ∧ v' = v) →
          currentAction s'.ballots pid' v' = currentAction s.ballots pid' v') ∧
    (∀ (s : CoreState) (pid : String) (v d : Int) (s' : CoreState),
        recordDelegation s pid v d = .ok s' →
        currentAction s'.ballots pid v = some (.Delegation pid v d s.nextSeq) ∧
        ∀ (pid' : String) (v' : Int), ¬(pid' = pid ∧ v' = v) →
          currentAction s'.ballots pid' v' = currentAction s.ballots pid' v') ∧
    (∀ (b1 b2 : List BallotAction) (pid : String),
        (∀ v, currentAction b1 pid v = currentAction b2 pid v) →
        ∀ v, effectiveVote b1 pid v = effectiveVote b2 pid v) := by
  refine ⟨?_, ?_, fun b1 b2 pid h v => effectiveVote_congr h v⟩
  · intro s pid v y s' h
    rw [recordVote_ok h]
    exact ⟨currentAction_cons_self _ _ _ _ rfl rfl,
           fun pid' v' hne => currentAction_cons_other _ _ rfl rfl hne⟩
  · intro s pid v d s' h
    rw [recordDelegation_ok h]
    exact ⟨currentAction_cons_self _ _ _ _ rfl rfl,
           fun pid' v' hne => currentAction_cons_other _ _ rfl rfl hne⟩

/-- C6: self-delegation always fails with InvalidDelegation (the call
produces no new state, so all state is unchanged), and InvalidDelegation is
raised only for self-delegation — a delegation to any other id, known or
unknown, never produces it. -/
theorem invalid_delegation_iff_self :
    (∀ (s : CoreState) (pid : String) (v : Int),
        recordDelegation s pid v v = .error .InvalidDelegation) ∧
    (∀ (s : CoreState) (pid : String) (v d : Int), v ≠ d →
        recordDelegation s pid v d ≠ .error .InvalidDelegation) := by
  constructor
  · intro s pid v
    unfold recordDelegation
    rw [if_pos rfl]
  · intro s pid v d hne
    unfold recordDelegation
    rw [if_neg (fun hc => hne hc.symm)]
    cases getProposal s pid with
    | none => simp
    | some p =>
      by_cases hs : p.status = .Finalized
      · simp [hs]
      · simp [hs]

/-- C7: a successful finalize commits outcome Passed exactly when the yes
count strictly exceeds the no count over the resolved effective votes of all
actors; in particular a tie yields Rejected. -/
theorem outcome_iff_yes_gt_no (s : CoreState) (pid : String) (fin : Int) (t : Nat)
    (s' : CoreState) (r : TallyResult) (h : finalize s pid fin t = .ok (s', r)) :
    (r.outcome = .Passed ↔ r.no_count < r.yes_count) ∧
    r.yes_count = yesCount s.ballots pid ∧ r.no_count = noCount s.ballots pid ∧
    r.abstain_count = abstainCount s.ballots pid ∧
    (r.yes_count = r.no_count → r.outcome = .Rejected) := by
  obtain ⟨p, hg, hopen, hr, hs'⟩ := finalize_ok h
  subst hr
  refine ⟨?_, rfl, rfl, rfl, ?_⟩
  · by_cases hc : noCount s.ballots pid < yesCount s.ballots pid
    · simp [hc]
    · simp [hc]
  · intro heq
    simp only at heq ⊢
    rw [if_neg (by omega)]

/-- C8: resolution is a pure, deterministic function of the store's current
actions: any two stores whose current actions coincide — regardless of call
order or retained history — yield exactly the same voter-to-effective-vote
mapping, so memoization of resolved voters can never change the result. -/
theorem resolve_pure_deterministic (b1 b2 : List BallotAction) (pid : String)
    (h : ∀ v, currentAction b1 pid v = currentAction b2 pid v) :
    ∀ v, effectiveVote b1 pid v = effectiveVote b2 pid v :=
  fun v => effectiveVote_congr h v

theorem effectiveVote_of_current {b : List BallotAction} {pid : String} {v : Int}
    {a : BallotAction} (h : currentAction b pid v = some a) :
    effectiveVote b pid v = some (resolveFromF b pid (b.length + 1) [v] a) := by
  unfold effectiveVote
  rw [h]

/-- C2: a delegation cycle — N distinct voters, each of whose current action
delegates to the next, cyclically — resolves every one of its N voters to
Abstain, for every N ≥ 2; the resolver is a total function (the path-tracking
walk detects the revisit), so resolution terminates for every such state. -/
theorem cycle_resolves_abstain (b : List BallotAction) (pid : String) (vs : List Int)
    (hlen : 2 ≤ vs.length) (_hnd : vs.Nodup)
    (hcyc : ∀ i : Fin vs.length, ∃ q, currentAction b pid (vs.get i) =
        some (.Delegation pid (vs.get i)
          (vs.get ⟨(i.val + 1) % vs.length, Nat.mod_lt _ (by omega)⟩) q)) :
    ∀ i : Fin vs.length, effectiveVote b pid (vs.get i) = some .Abstain := by
  have hS : ∀ v ∈ vs.toFinset, ∃ d q,
      currentAction b pid v = some (.Delegation pid v d q) ∧ d ∈ vs.toFinset := by
    intro v hv
    obtain ⟨i, hi⟩ := List.mem_iff_get.mp (List.mem_toFinset.mp hv)
    obtain ⟨q, hq⟩ := hcyc i
    rw [hi] at hq
    exact ⟨_, q, hq, List.mem_toFinset.mpr (List.get_mem _ _ _)⟩
  have hcard : ∀ v ∈ vs.toFinset, ∃ a, currentAction b pid v = some a := by
    intro v hv
    obtain ⟨d, q, hq, _⟩ := hS v hv
    exact ⟨_, hq⟩
  intro i
  obtain ⟨q, hq⟩ := hcyc i
  rw [effectiveVote_of_current hq]
  congr 1
  apply resolveFromF_closedSet hS
  · exact List.mem_toFinset.mpr (List.get_mem _ _ _)
  · have h1 : (vs.toFinset \ [vs.get i].toFinset).card ≤ vs.toFinset.card :=
      Finset.card_le_card (Finset.sdiff_subset)
    have h2 : vs.toFinset.card ≤ b.length := card_le_length_of_allActed hcard
    omega

/-- C3: a two-step delegation chain ending in a direct Yes vote — A delegates
to B, B delegates to C, C votes Yes — resolves A, B and C all to Yes:
delegation chains are followed transitively to the terminal direct vote. -/
theorem chain_resolves_transitively (b : List BallotAction) (pid : String)
    (A B C : Int) (qA qB qC : Nat)
    (hBA : B ≠ A) (hCA : C ≠ A) (hCB : C ≠ B)
    (hA : currentAction b pid A = some (.Delegation pid A B qA))
    (hB : currentAction b pid B = some (.Delegation pid B C qB))
    (hC : currentAction b pid C = some (.DirectVote pid C true qC)) :
    effectiveVote b pid A = some .Yes ∧ effectiveVote b pid B = some .Yes ∧
      effectiveVote b pid C = some .Yes := by
  have hlen : 2 ≤ b.length := by
    have hmB := List.mem_of_find?_eq_some hB
    have hmC := List.mem_of_find?_eq_some hC
    exact two_le_length_of_mem hmB hmC (by simp)
  obtain ⟨f, hf⟩ : ∃ f, b.length + 1 = (f + 1) + 1 := ⟨b.length - 1, by omega⟩
  have hfuel : 1 ≤ f := by omega
  obtain ⟨g, hg⟩ : ∃ g, f = g + 1 := ⟨f - 1, by omega⟩
  have walkC : ∀ (n : Nat) (path : List Int),
      resolveFromF b pid (n + 1) path (.DirectVote pid C true qC) = .Yes := by
    intro n path
    rfl
  have walkB : ∀ (n : Nat) (path : List Int), C ∉ path →
      resolveFromF b pid (n + 1 + 1) path (.Delegation pid B C qB) = .Yes := by
    intro n path hCp
    rw [resolveFromF_deleg_step hCp, hC]
    exact walkC n (C :: path)
  have walkA : ∀ (n : Nat) (path : List Int), B ∉ path → C ∉ B :: path →
      resolveFromF b pid (n + 1 + 1 + 1) path (.Delegation pid A B qA) = .Yes := by
    intro n path hBp hCp
    rw [resolveFromF_deleg_step hBp, hB]
    exact walkB n (B :: path) hCp
  refine ⟨?_, ?_, ?_⟩
  · rw [effectiveVote_of_current hA, hf, hg]
    rw [walkA g [A] (by simp [hBA]) (by simp [hCB, hCA])]
  · rw [effectiveVote_of_current hB, hf]
    rw [walkB f [B] (by simp [hCB])]
  · rw [effectiveVote_of_current hC, hf]
    rw [walkC (f + 1) [C]]

/-- Every voter on a dangling delegation chain resolves to Abstain. -/
theorem dangling_chain_abstain {b : List BallotAction} {pid : String} {dEnd : Int}
    (hend : currentAction b pid dEnd = none) :
    ∀ (vs : List Int) (tgt : Int), danglingChain b pid dEnd vs tgt →
      vs.Nodup → dEnd ∉ vs → ∀ v ∈ vs, effectiveVote b pid v = some .Abstain := by
  intro vs
  induction vs with
  | nil => intro tgt _ _ _ v hv; simp at hv
  | cons w rest ih =>
    rintro tgt ⟨heq, d, q, hact, hchain⟩ hnd hdw v hv
    obtain ⟨hwrest, hndrest⟩ := List.nodup_cons.mp hnd
    rcases List.mem_cons.mp hv with rfl | hv'
    · rw [effectiveVote_of_current hact]
      congr 1
      have hacted : ∀ x ∈ rest.toFinset, ∃ a, currentAction b pid x = some a := by
        intro x hx
        exact danglingChain_acted hchain x (List.mem_toFinset.mp hx)
      have hcard : rest.length ≤ b.length := by
        have h1 := card_le_length_of_allActed hacted
        rwa [List.toFinset_card_of_nodup hndrest] at h1
      apply resolveFromF_dangling hend rest d (b.length + 1) [v] pid v q hchain hndrest
        (fun hc => hdw (List.mem_cons_of_mem _ hc))
      · intro x hx
        simp only [List.mem_singleton]
        intro hc
        exact hwrest (hc ▸ hx)
      · simp only [List.mem_singleton]
        intro hc
        exact hdw (hc ▸ List.mem_cons_self _ rest)
      · omega
    · exact ih d hchain hndrest (fun hc => hdw (List.mem_cons_of_mem _ hc)) v hv'

/-- C4: a delegation chain that reaches an id with no current action (a
dangling delegation) resolves every voter on the chain to Abstain, and
recording a delegation to an id that never acted is accepted by the store,
not an error. -/
theorem dangling_delegation_abstain :
    (∀ (b : List BallotAction) (pid : String) (dEnd tgt : Int) (vs : List Int),
        danglingChain b pid dEnd vs tgt → vs.Nodup → dEnd ∉ vs →
        currentAction b pid dEnd = none →
        ∀ v ∈ vs, effectiveVote b pid v = some .Abstain) ∧
    (∀ (s : CoreState) (pid : String) (v d : Int) (p : Proposal), d ≠ v →
        getProposal s pid = some p → p.status ≠ .Finalized →
        currentAction s.ballots pid d = none →
        ∃ s', recordDelegation s pid v d = .ok s') := by
  constructor
  · intro b pid dEnd tgt vs hchain hnd hdw hend
    exact dangling_chain_abstain hend vs tgt hchain hnd hdw
  · intro s pid v d p hdv hp hopen _
    refine ⟨{ s with
              ballots := .Delegation pid v d s.nextSeq :: s.ballots
              nextSeq := s.nextSeq + 1 }, ?_⟩
    unfold recordDelegation
    rw [if_neg hdv, hp]
    show (if p.status = Status.Finalized then Except.error CoreError.ProposalFinalized else _) = _
    rw [if_neg hopen]

/-- C9: the client's delegate operation sends the delegation target under
the JSON key "delegator_id", populated from the third positional argument of
the delegate subcommand; no "delegate_id" key (the spec's name for the
target) appears in the body. -/
theorem delegate_body_uses_delegator_id (a : DelegateArgs) :
    jsonLookup "delegator_id" (runDelegateCmd a).2 = some (.int a.delegator_id) ∧
    jsonLookup "delegate_id" (runDelegateCmd a).2 = none := by
  constructor
  · rfl
  · rfl

/-- C10: the client's vote subcommand converts its integer vote argument
with Python bool() before sending: every nonzero integer, negative values
included, is transmitted as is_yes = true, and only 0 as is_yes = false. -/
theorem vote_arg_truthiness (a : VoteArgs) :
    (a.vote ≠ 0 → jsonLookup "is_yes" (runVoteCmd a).2 = some (.bool true)) ∧
    (a.vote = 0 → jsonLookup "is_yes" (runVoteCmd a).2 = some (.bool false)) := by
  have hbase : jsonLookup "is_yes" (runVoteCmd a).2 = some (.bool (pyBool a.vote)) := rfl
  constructor
  · intro h
    rw [hbase]
    have : pyBool a.vote = true := by
      simp [pyBool, bne_iff_ne, h]
    rw [this]
  · intro h
    rw [hbase]
    have : pyBool a.vote = false := by
      simp [pyBool, h]
    rw [this]

/-! ## Concrete witness states -/

/-- The spec's end-to-end scenario (§8) before finalize: proposal P1 open,
Vote(P1, 2, true), Delegate(P1, 3, 2), Vote(P1, 4, false). -/
def exState : CoreState :=
  { proposals := [{ id := "P1", proposer_id := 1, statement := "Adopt charter",
                    status := .Open, result := none }]
    ballots := [.DirectVote "P1" 4 false 2, .Delegation "P1" 3 2 1, .DirectVote "P1" 2 true 0]
    nextSeq := 3 }

/-- The state and tally produced by finalizing the example (the fallback arm
is never taken). -/
def exFinal : CoreState × TallyResult :=
  match finalize exState "P1" 5 0 with
  | .ok pr => pr
  | .error _ => (exState, ⟨"", 0, 0, 0, .Rejected, 0, 0⟩)

/-- A two-cycle of delegations: 1 → 2 → 1. -/
def cycleBallots : List BallotAction :=
  [.Delegation "P" 1 2 0, .Delegation "P" 2 1 1]

/-- A chain 1 → 2 → 3 with 3 voting Yes. -/
def chainBallots : List BallotAction :=
  [.Delegation "P" 1 2 0, .Delegation "P" 2 3 1, .DirectVote "P" 3 true 2]

/-- A dangling chain 1 → 2 → 3 where 3 never acts. -/
def danglingBallots : List BallotAction :=
  [.Delegation "P" 1 2 0, .Delegation "P" 2 3 1]

/-- Histories with and without a superseded action for voter 2. -/
def staleBallots : List BallotAction :=
  [.DirectVote "P1" 2 false 3, .DirectVote "P1" 2 true 0]

def freshBallots : List BallotAction :=
  [.DirectVote "P1" 2 false 3]

theorem stale_fresh_agree :
    ∀ v, currentAction staleBallots "P1" v = currentAction freshBallots "P1" v := by
  intro v
  by_cases hv : v = 2
  · subst hv
    decide
  · simp [staleBallots, freshBallots, currentAction, List.find?,
      BallotAction.proposalId, BallotAction.voterId, Ne.symm hv]

/-! ## Witnesses -/

theorem finalize_at_most_once_witness :
    finalize exFinal.1 "P1" 9 99 = .error .AlreadyFinalized ∧
    (getProposal exFinal.1 "P1").map Proposal.result = some (some exFinal.2) := by
  have h := finalize_at_most_once exState "P1" 5 0 exFinal.1 exFinal.2 rfl
  exact ⟨h.1 9 99, h.2⟩

theorem cycle_resolves_abstain_witness :
    effectiveVote cycleBallots "P" 1 = some .Abstain ∧
    effectiveVote cycleBallots "P" 2 = some .Abstain := by
  have h := cycle_resolves_abstain cycleBallots "P" [1, 2] (by decide) (by decide) ?hcyc
  case hcyc =>
    intro i
    fin_cases i
    · exact ⟨0, by decide⟩
    · exact ⟨1, by decide⟩
  exact ⟨h ⟨0, by decide⟩, h ⟨1, by decide⟩⟩

theorem chain_resolves_transitively_witness :
    effectiveVote chainBallots "P" 1 = some .Yes ∧
    effectiveVote chainBallots "P" 2 = some .Yes ∧
    effectiveVote chainBallots "P" 3 = some .Yes :=
  chain_resolves_transitively chainBallots "P" 1 2 3 0 1 2 (by decide) (by decide)
    (by decide) (by decide) (by decide) (by decide)

theorem dangling_delegation_abstain_witness :
    (effectiveVote danglingBallots "P" 1 = some .Abstain ∧
     effectiveVote danglingBallots "P" 2 = some .Abstain) ∧
    ∃ s', recordDelegation exState "P1" 5 7 = .ok s' := by
  constructor
  · have h := dangling_delegation_abstain.1 danglingBallots "P" 3 1 [1, 2]
      ⟨rfl, 2, 0, by decide, rfl, 3, 1, by decide, rfl⟩ (by decide) (by decide) (by decide)
    exact ⟨h 1 (by decide), h 2 (by decide)⟩
  · exact dangling_delegation_abstain.2 exState "P1" 5 7
      { id := "P1", proposer_id := 1, statement := "Adopt charter",
        status := .Open, result := none }
      (by decide) (by decide) (by decide) (by decide)

theorem current_action_supersedes_witness :
    (currentAction (.DirectVote "P1" 2 false 3 :: exState.ballots) "P1" 2 =
       some (.DirectVote "P1" 2 false 3) ∧
     currentAction (.DirectVote "P1" 2 false 3 :: exState.ballots) "P1" 4 =
       currentAction exState.ballots "P1" 4) ∧
    effectiveVote staleBallots "P1" 2 = effectiveVote freshBallots "P1" 2 := by
  constructor
  · have h := current_action_supersedes.1 exState "P1" 2 false
      { exState with
        ballots := .DirectVote "P1" 2 false 3 :: exState.ballots
        nextSeq := 4 } rfl
    exact ⟨h.1, h.2 "P1" 4 (by decide)⟩
  · exact current_action_supersedes.2.2 staleBallots freshBallots "P1" stale_fresh_agree 2

theorem invalid_delegation_iff_self_witness :
    recordDelegation exState "P1" 2 2 = .error .InvalidDelegation ∧
    recordDelegation exState "P1" 2 4 ≠ .error .InvalidDelegation :=
  ⟨invalid_delegation_iff_self.1 exState "P1" 2,
   invalid_delegation_iff_self.2 exState "P1" 2 4 (by decide)⟩

theorem outcome_iff_yes_gt_no_witness :
    (exFinal.2.outcome = .Passed ↔ exFinal.2.no_count < exFinal.2.yes_count) ∧
    exFinal.2.yes_count = yesCount exState.ballots "P1" ∧
    exFinal.2.no_count = noCount exState.ballots "P1" ∧
    exFinal.2.abstain_count = abstainCount exState.ballots "P1" ∧
    (exFinal.2.yes_count = exFinal.2.no_count → exFinal.2.outcome = .Rejected) :=
  outcome_iff_yes_gt_no exState "P1" 5 0 exFinal.1 exFinal.2 rfl

theorem resolve_pure_deterministic_witness :
    effectiveVote staleBallots "P1" 2 = effectiveVote freshBallots "P1" 2 :=
  resolve_pure_deterministic staleBallots freshBallots "P1" stale_fresh_agree 2

theorem vote_arg_truthiness_witness :
    jsonLookup "is_yes" (runVoteCmd ⟨"P1", 2, -5⟩).2 = some (.bool true) ∧
    jsonLookup "is_yes" (runVoteCmd ⟨"P1", 2, 0⟩).2 = some (.bool false) :=
  ⟨(vote_arg_truthiness ⟨"P1", 2, -5⟩).1 (by decide),
   (vote_arg_truthiness ⟨"P1", 2, 0⟩).2 rfl⟩

end QED
